import Mathlib

/-!
Verification of the ranking core of the furniture recommendation engine.

The repository's ranking behaviour (reciprocal rank fusion and maximal
marginal relevance) is implemented by the mock `VectorStore` in
`tests/test_retrieval.py`, which the specification designates as the design
contract.  The serving side (`server/retrieval.py`, `server/cache.py`,
`server/models.py`, `server/main.py`) provides keyword search with
pagination, a query cache, request validation and the recommend endpoint.
This file gives a shallow embedding of those components and proves or
refutes the frozen claims about them.

Python `dict`s are modelled as insertion-ordered association lists:
assignment to an existing key overwrites the value in place, assignment to
a fresh key appends at the end, which is exactly CPython's observable
insertion-order semantics.  Python floats are modelled as exact rationals.
-/

/-- Lookup in a Python-dict model: value of the first pair with the key. -/
def dictGet {β : Type _} : List (String × β) → String → Option β
  | [], _ => none
  | p :: ps, k => if p.1 = k then some p.2 else dictGet ps k

/-- Membership test in a Python-dict model (the Python `in` operator). -/
def dictHas {β : Type _} : List (String × β) → String → Bool
  | [], _ => false
  | p :: ps, k => if p.1 = k then true else dictHas ps k

/-- Assignment in a Python-dict model: overwrite in place if the key is
present, append at the end otherwise. -/
def dictSet {β : Type _} : List (String × β) → String → β → List (String × β)
  | [], k, v => [(k, v)]
  | p :: ps, k, v => if p.1 = k then (k, v) :: ps else p :: dictSet ps k v

/-- Stable insertion into a list sorted by non-increasing score: the new
element goes in front of the first strictly smaller score, after all
scores that are greater than or equal to it. -/
def insertDesc {α : Type _} (score : α → ℚ) (x : α) : List α → List α
  | [] => [x]
  | y :: ys => if score y ≤ score x then x :: y :: ys else y :: insertDesc score x ys

/-- Stable sort by non-increasing score, the model of Python's
`sorted(..., key=score, reverse=True)` (Python's sort is stable and
`reverse=True` preserves the relative order of equal keys). -/
def sortDesc {α : Type _} (score : α → ℚ) : List α → List α
  | [] => []
  | x :: xs => insertDesc score x (sortDesc score xs)

/-- Pair every element with its position, starting at `n`. -/
def withIdx {α : Type _} : ℕ → List α → List (ℕ × α)
  | _, [] => []
  | n, x :: xs => (n, x) :: withIdx (n + 1) xs

namespace Tests

/-- Product record of the mock classes in `tests/test_retrieval.py`
(`categories` is a list of category names there). -/
structure ProductMetadata where
  uniq_id : String
  title : String
  description : String
  price : ℚ
  categories : List String
  image_url : String := ""
  deriving DecidableEq, Repr

instance : Inhabited ProductMetadata := ⟨⟨"", "", "", 0, [], ""⟩⟩

/-- Loop body of the `enumerate` loops of `_reciprocal_rank_fusion`:
assign `1 / (i + 1)` to each candidate's id, `i` being the 0-indexed rank. -/
def rankScoresAux : ℕ → List ProductMetadata → List (String × ℚ) → List (String × ℚ)
  | _, [], d => d
  | i, c :: cs, d => rankScoresAux (i + 1) cs (dictSet d c.uniq_id (1 / ((i : ℚ) + 1)))

/-- The `text_scores` / `image_scores` dictionaries of
`_reciprocal_rank_fusion`: reciprocal-rank score per candidate id. -/
def rankScores (cs : List ProductMetadata) : List (String × ℚ) :=
  rankScoresAux 0 cs []

/-- The `combined_scores` dictionary of `_reciprocal_rank_fusion`:
text candidates enter with their text score, image candidates add their
image score to an existing entry or create a fresh one. -/
def combinedScores (ts imgs : List ProductMetadata) : List (String × ℚ) :=
  let tS := rankScores ts
  let iS := rankScores imgs
  let d1 := ts.foldl (fun d c => dictSet d c.uniq_id ((dictGet tS c.uniq_id).getD 0)) []
  imgs.foldl (fun d c =>
    if dictHas d c.uniq_id then
      dictSet d c.uniq_id ((dictGet d c.uniq_id).getD 0 + (dictGet iS c.uniq_id).getD 0)
    else
      dictSet d c.uniq_id ((dictGet iS c.uniq_id).getD 0)) d1

/-- The `all_candidates` dictionary of `_reciprocal_rank_fusion`. -/
def allCandidates (ts imgs : List ProductMetadata) : List (String × ProductMetadata) :=
  imgs.foldl (fun d c => dictSet d c.uniq_id c)
    (ts.foldl (fun d c => dictSet d c.uniq_id c) [])

/-- `VectorStore._reciprocal_rank_fusion` of `tests/test_retrieval.py`:
sort the combined scores by descending score (stable sort), keep the first
`k`, and map the ids back to candidate records. -/
def reciprocal_rank_fusion (ts imgs : List ProductMetadata) (k : ℕ) : List ProductMetadata :=
  ((sortDesc Prod.snd (combinedScores ts imgs)).take k).filterMap
    (fun p => dictGet (allCandidates ts imgs) p.1)

/-- The MMR score computed inside `_maximal_marginal_relevance`:
`lambda * relevance - (1 - lambda) * diversity` with
`relevance = 1 / (idx + 1)` and `diversity = 1 - 0.1 * len(selected)`. -/
def mmrScore (lam : ℚ) (nsel : ℕ) (idx : ℕ) : ℚ :=
  lam * (1 / ((idx : ℚ) + 1)) - (1 - lam) * (1 - (nsel : ℚ) * (1 / 10))

/-- The inner `for idx in remaining` scan of `_maximal_marginal_relevance`:
starting from `best_score = -inf` and updating on strictly greater scores,
the first element always becomes the initial best. -/
def bestBy (f : ℕ → ℚ) : ℕ → List ℕ → ℕ
  | best, [] => best
  | best, x :: xs => if f best < f x then bestBy f x xs else bestBy f best xs

/-- The `while len(selected) < k and remaining` loop of
`_maximal_marginal_relevance`.  Each pass removes exactly one index from
`remaining`, so fuel `remaining.length` makes the loop structural. -/
def mmrLoop (lam : ℚ) (k : ℕ) : ℕ → List ℕ → List ℕ → List ℕ
  | 0, sel, _ => sel
  | _ + 1, sel, [] => sel
  | fuel + 1, sel, x :: xs =>
    if sel.length < k then
      let b := bestBy (mmrScore lam sel.length) x xs
      mmrLoop lam k fuel (sel ++ [b]) ((x :: xs).erase b)
    else sel

/-- `VectorStore._maximal_marginal_relevance` of `tests/test_retrieval.py`:
return the candidates unchanged when there are at most `k`, otherwise seed
the selection with index 0 and greedily add the best-scoring remaining
index until `k` are selected. -/
def maximal_marginal_relevance (candidates : List ProductMetadata) (k : ℕ)
    (lam : ℚ) : List ProductMetadata :=
  if candidates.length ≤ k then candidates
  else
    let rem := List.range' 1 (candidates.length - 1)
    let selected := mmrLoop lam k rem.length [0] rem
    selected.map (fun i => candidates.getD i default)

/-- First 0-indexed rank of a candidate id in a channel list. -/
def rankOf : List ProductMetadata → String → Option ℕ
  | [], _ => none
  | c :: cs, id => if c.uniq_id = id then some 0 else (rankOf cs id).map (· + 1)

/-- Reciprocal-rank score a channel contributes for an id, if present. -/
def channelScore (l : List ProductMetadata) (id : String) : Option ℚ :=
  (rankOf l id).map (fun r : ℕ => 1 / ((r : ℚ) + 1))

/-- The per-id combined score demanded of the fusion: sum of the
per-channel reciprocal-rank contributions. -/
def combinedExpected (ts imgs : List ProductMetadata) (id : String) : Option ℚ :=
  match channelScore ts id, channelScore imgs id with
  | some a, some b => some (a + b)
  | some a, none => some a
  | none, some b => some b
  | none, none => none

/-- Explicit form of a reciprocal-rank score dictionary: one entry per
candidate in channel order, rank counting from `i`. -/
def scoreList : ℕ → List ProductMetadata → List (String × ℚ)
  | _, [] => []
  | i, c :: cs => (c.uniq_id, 1 / ((i : ℚ) + 1)) :: scoreList (i + 1) cs

/-- Explicit form of folding the image channel into a score dictionary
`d`: present keys get `g` added to their value, fresh image ids are
appended with value `g`. -/
def mergeImage (g : String → ℚ) (d : List (String × ℚ)) (l : List ProductMetadata) :
    List (String × ℚ) :=
  d.map (fun p =>
      (p.1, if p.1 ∈ l.map ProductMetadata.uniq_id then p.2 + g p.1 else p.2))
    ++ (l.filter (fun c => !dictHas d c.uniq_id)).map (fun c => (c.uniq_id, g c.uniq_id))

end Tests

/-- The order the fused list must realise on index-tagged score entries:
strictly greater score first, ties resolved by the earlier position in the
combined-score dictionary (its insertion order: text candidates by rank,
then new image candidates by rank). -/
def fusedOrder (a b : ℕ × String × ℚ) : Prop :=
  b.2.2 < a.2.2 ∨ (a.2.2 = b.2.2 ∧ a.1 < b.1)

/-- Containment of one character sequence in another, the model of the
Python `in` operator on strings (an empty needle is contained in every
string). -/
def containsSub (needle : List Char) : List Char → Bool
  | [] => needle.isEmpty
  | c :: rest => needle.isPrefixOf (c :: rest) || containsSub needle rest

/-- Character-wise lowercasing, the model of Python's `str.lower()`. -/
def lowerStr (s : String) : List Char := s.data.map Char.toLower

namespace Server

/-- Product record of `server/models.py` (`categories` is a plain string
there, and `price` is a non-negative decimal modelled as a rational). -/
structure ProductMetadata where
  uniq_id : String
  title : String
  brand : String
  description : String
  price : ℚ
  categories : String
  image_url : String
  material : Option String := none
  color : Option String := none
  dimensions : Option String := none
  deriving DecidableEq, Repr

/-- Result container of `server/retrieval.py` (`SearchResult`). -/
structure SearchResult where
  products : List ProductMetadata
  total_found : ℕ
  total_pages : ℕ
  search_time_ms : ℚ
  reasons : List String
  deriving DecidableEq, Repr

/-- The keyword match of `VectorStore.search`: the lowercased query is a
substring of the lowercased title, brand, categories or description. -/
def matchesQuery (query : String) (p : ProductMetadata) : Bool :=
  containsSub (lowerStr query) (lowerStr p.title)
    || containsSub (lowerStr query) (lowerStr p.brand)
    || containsSub (lowerStr query) (lowerStr p.categories)
    || containsSub (lowerStr query) (lowerStr p.description)

/-- The `filtered_products` list of `VectorStore.search`: candidates whose
text matches the query, or the whole catalogue when nothing matches. -/
def filteredProducts (metadata : List ProductMetadata) (query : String) :
    List ProductMetadata :=
  let f := metadata.filter (matchesQuery query)
  if f.isEmpty then metadata else f

/-- Python list slicing `l[a:b]` with step 1: negative indices count from
the end, indices are clamped to the list bounds, and an empty range yields
an empty list.  Slicing never raises. -/
def pySlice {α : Type _} (l : List α) (a b : ℤ) : List α :=
  let n : ℤ := (l.length : ℤ)
  let s : ℤ := if a < 0 then max (n + a) 0 else min a n
  let e : ℤ := if b < 0 then max (n + b) 0 else min b n
  (l.drop s.toNat).take (e - s).toNat

/-- The pagination slice of `VectorStore.search`:
`filtered_products[start_idx:end_idx]` with `start_idx = (page - 1) * size`
and `end_idx = start_idx + size`. -/
def paginateSlice {α : Type _} (l : List α) (page : ℤ) (size : ℕ) : List α :=
  pySlice l ((page - 1) * (size : ℤ)) ((page - 1) * (size : ℤ) + (size : ℤ))

/-- The page count of `VectorStore.search`:
`(len(filtered_products) + size - 1) // size`. -/
def totalPages (n size : ℕ) : ℕ := (n + size - 1) / size

/-- `VectorStore.search` of `server/retrieval.py`: keyword filtering with
whole-catalogue fallback, then pagination. -/
def search (metadata : List ProductMetadata) (query : String) (page : ℤ)
    (size : ℕ) : SearchResult :=
  let filtered := filteredProducts metadata query
  { products := paginateSlice filtered page size
    total_found := filtered.length
    total_pages := totalPages filtered.length size
    search_time_ms := 50
    reasons := ["Found " ++ toString filtered.length ++ " products matching " ++ query] }

/-- The demo catalogue of `VectorStore._load_demo_products`. -/
def demoProducts : List ProductMetadata :=
  [ { uniq_id := "demo-1"
      title := "Modern Office Chair"
      brand := "ErgoSeat"
      description := "Comfortable ergonomic office chair"
      price := 29999 / 100
      categories := "office furniture"
      image_url := "https://example.com/chair1.jpg"
      material := some "mesh"
      color := some "black" },
    { uniq_id := "demo-2"
      title := "Wooden Dining Table"
      brand := "OakCraft"
      description := "Solid oak dining table"
      price := 89999 / 100
      categories := "dining furniture"
      image_url := "https://example.com/table1.jpg"
      material := some "oak"
      color := some "natural" } ]

namespace QueryCache

/-- `QueryCache.get` of `server/cache.py`: `self.cache.get(key)`, a pure
read that does not modify the dictionary. -/
def get {β : Type _} (cache : List (String × β)) (key : String) : Option β :=
  dictGet cache key

/-- `QueryCache.set` of `server/cache.py`: `self.cache[key] = value`, a
plain dictionary assignment with no capacity check and no eviction. -/
def set {β : Type _} (cache : List (String × β)) (key : String) (value : β) :
    List (String × β) :=
  dictSet cache key value

end QueryCache

/-- Observable outcome of one call to the recommend endpoint: the HTTP
status, the optional search result, the query-cache state afterwards, and
whether the search pipeline was executed during the call. -/
structure RecommendOutcome where
  status : ℕ
  result : Option SearchResult
  cache : List (String × SearchResult)
  searchRan : Bool
  deriving DecidableEq, Repr

/-- The body of `recommend_furniture` in `server/main.py`: after the
service-availability guard it always runs `vector_store.search` and builds
the response from it.  The handler never reads or writes `query_cache`
(the module is imported in `main.py` but unused), so the cache state is
returned unchanged. -/
def recommend_furniture (initialized : Bool)
    (metadata : List ProductMetadata) (cache : List (String × SearchResult))
    (query : String) (page : ℤ) (size : ℕ) : RecommendOutcome :=
  if initialized then
    { status := 200
      result := some (search metadata query page size)
      cache := cache
      searchRan := true }
  else
    { status := 503, result := none, cache := cache, searchRan := false }

/-- The field constraints of `RecommendRequest` in `server/models.py`:
`query` has `min_length=1, max_length=500`, `k` is in `[1, 50]`, `page` is
`>= 1` and `size` is in `[1, 20]`. -/
def validRecommendRequest (query : String) (k page size : ℤ) : Bool :=
  decide (1 ≤ query.length) && decide (query.length ≤ 500)
    && decide (1 ≤ k) && decide (k ≤ 50)
    && decide (1 ≤ page)
    && decide (1 ≤ size) && decide (size ≤ 20)

/-- The request path of the recommend endpoint: FastAPI validates the
Pydantic model before the handler body runs, so an invalid request is
rejected with a validation error (HTTP 422) and no pipeline stage
executes. -/
def handleRecommend (initialized : Bool) (metadata : List ProductMetadata)
    (cache : List (String × SearchResult)) (query : String)
    (k page size : ℤ) : RecommendOutcome :=
  if validRecommendRequest query k page size then
    recommend_furniture initialized metadata cache query page size.toNat
  else
    { status := 422, result := none, cache := cache, searchRan := false }

end Server

/-- Concrete text-channel candidate used for witnesses. -/
def prodA : Tests.ProductMetadata :=
  { uniq_id := "A", title := "Chair A", description := "a chair", price := 100,
    categories := ["Chair"] }

/-- Concrete candidate appearing in both channels, used for witnesses. -/
def prodB : Tests.ProductMetadata :=
  { uniq_id := "B", title := "Chair B", description := "a chair", price := 150,
    categories := ["Chair"] }

/-- Concrete image-channel candidate used for witnesses. -/
def prodC : Tests.ProductMetadata :=
  { uniq_id := "C", title := "Table C", description := "a table", price := 200,
    categories := ["Table"] }

/-- Concrete text channel for witnesses: `[A, B]`. -/
def tsW : List Tests.ProductMetadata := [prodA, prodB]

/-- Concrete image channel for witnesses: `[B, C]` (overlaps on `B`). -/
def isW : List Tests.ProductMetadata := [prodB, prodC]

/-- A 25-product catalogue whose titles all contain "item", used to
exercise pagination. -/
def catalog25 : List Server.ProductMetadata :=
  (List.range 25).map (fun i =>
    { uniq_id := toString i, title := "item " ++ toString i, brand := "brand",
      description := "desc", price := 1, categories := "cat",
      image_url := "" })

/-- Claim C4 (code bug): `QueryCache` is documented as an LRU cache of
bounded capacity, but `server/cache.py` stores entries in a plain
unbounded dict: filling "capacity" 2 with `a`, `b`, reading `a` (`get` is
a pure read with no recency bookkeeping) and inserting `c` evicts nothing
— all three entries, including `b`, are still present. -/
theorem cache_never_evicts :
    (Server.QueryCache.set (Server.QueryCache.set (Server.QueryCache.set
        ([] : List (String × ℕ)) "a" 1) "b" 2) "c" 3).length = 3
    ∧ Server.QueryCache.get (Server.QueryCache.set (Server.QueryCache.set
        (Server.QueryCache.set ([] : List (String × ℕ)) "a" 1) "b" 2) "c" 3) "a" = some 1
    ∧ Server.QueryCache.get (Server.QueryCache.set (Server.QueryCache.set
        (Server.QueryCache.set ([] : List (String × ℕ)) "a" 1) "b" 2) "c" 3) "b" = some 2
    ∧ Server.QueryCache.get (Server.QueryCache.set (Server.QueryCache.set
        (Server.QueryCache.set ([] : List (String × ℕ)) "a" 1) "b" 2) "c" 3) "c" = some 3 := by
  decide

/-- Claim C5 (code bug): the recommend handler of `server/main.py` never
consults or populates `query_cache` (the import is unused), so a repeated
identical request leaves the cache empty and re-executes the search
pipeline instead of being short-circuited by a cache hit. -/
theorem recommend_never_caches :
    (Server.handleRecommend true Server.demoProducts [] "chair" 10 1 8).cache = []
    ∧ (Server.handleRecommend true Server.demoProducts [] "chair" 10 1 8).searchRan = true
    ∧ (Server.handleRecommend true Server.demoProducts
        (Server.handleRecommend true Server.demoProducts [] "chair" 10 1 8).cache
        "chair" 10 1 8).searchRan = true
    ∧ (Server.handleRecommend true Server.demoProducts
        (Server.handleRecommend true Server.demoProducts [] "chair" 10 1 8).cache
        "chair" 10 1 8).cache = [] := by
  decide

/-- Claim C2 (code bug): the mock MMR of `tests/test_retrieval.py`
computes its "diversity" penalty as `1 - 0.1 * len(selected)`, identical
for every unselected candidate, instead of the claimed
`max_similarity(candidate, selected)`; consequently with candidates
`[A(Chair), B(Chair), C(Table)]`, `k = 2` and the default
`lambda = 0.7 < 1` it selects the prefix `[A, B]`, a single-category
result, although the candidate set spans two categories (under the
claimed category-overlap similarity, `C`'s score `0.7/3 - 0.3*0 = 7/30`
beats `B`'s `0.7/2 - 0.3*1 = 1/20`). -/
theorem mmr_ignores_categories :
    Tests.maximal_marginal_relevance [prodA, prodB, prodC] 2 (7/10) = [prodA, prodB]
    ∧ prodA.categories = ["Chair"] ∧ prodB.categories = ["Chair"]
    ∧ prodC.categories = ["Table"] := by
  refine ⟨?_, rfl, rfl, rfl⟩
  norm_num [Tests.maximal_marginal_relevance, Tests.mmrLoop, Tests.bestBy, Tests.mmrScore,
    List.range', List.erase, List.getD, prodA, prodB, prodC]

/-- Claim C7: a request with `page < 1`, `size` outside `[1, 20]` or an
empty query fails Pydantic validation, so the endpoint answers with a
validation error and no pipeline stage runs. -/
theorem invalid_request_rejected (init : Bool)
    (metadata : List Server.ProductMetadata)
    (cache : List (String × Server.SearchResult)) (query : String)
    (k page size : ℤ)
    (h : page < 1 ∨ size < 1 ∨ 20 < size ∨ query = "") :
    (Server.handleRecommend init metadata cache query k page size).status = 422
    ∧ (Server.handleRecommend init metadata cache query k page size).searchRan = false
    ∧ (Server.handleRecommend init metadata cache query k page size).result = none := by
  have hv : Server.validRecommendRequest query k page size = false := by
    rw [Bool.eq_false_iff]
    intro hcontra
    simp only [Server.validRecommendRequest, Bool.and_eq_true, decide_eq_true_eq] at hcontra
    obtain ⟨⟨⟨⟨⟨⟨h1, h2⟩, h3⟩, h4⟩, h5⟩, h6⟩, h7⟩ := hcontra
    rcases h with h | h | h | h
    · omega
    · omega
    · omega
    · subst h; exact absurd h1 (by decide)
  unfold Server.handleRecommend
  rw [hv]
  exact ⟨rfl, rfl, rfl⟩

/-- Witness for C7: the concrete invalid request `page = 0` is rejected
with status 422 and the pipeline does not run. -/
theorem invalid_request_rejected_witness :
    ((0 : ℤ) < 1 ∨ (8 : ℤ) < 1 ∨ (20 : ℤ) < 8 ∨ "chair" = "")
    ∧ ((Server.handleRecommend true Server.demoProducts [] "chair" 10 0 8).status = 422
      ∧ (Server.handleRecommend true Server.demoProducts [] "chair" 10 0 8).searchRan = false
      ∧ (Server.handleRecommend true Server.demoProducts [] "chair" 10 0 8).result = none) :=
  ⟨Or.inl (by decide),
    invalid_request_rejected true Server.demoProducts [] "chair" 10 0 8 (Or.inl (by decide))⟩

/-- The inner scan of the MMR loop keeps its starting index when no later
index scores strictly higher. -/
theorem bestBy_of_le (f : ℕ → ℚ) (x : ℕ) (l : List ℕ) (h : ∀ y ∈ l, f y ≤ f x) :
    Tests.bestBy f x l = x := by
  induction l with
  | nil => rfl
  | cons y ys ih =>
    simp only [Tests.bestBy]
    rw [if_neg (not_lt.mpr (h y (List.mem_cons_self y ys)))]
    exact ih fun z hz => h z (List.mem_cons_of_mem y hz)

/-- For a non-negative `lambda` the mock MMR score is antitone in the
candidate index: the diversity term does not depend on the candidate, so
only the reciprocal relevance varies. -/
theorem mmrScore_anti (lam : ℚ) (hlam : 0 ≤ lam) (m : ℕ) {x y : ℕ} (hxy : x ≤ y) :
    Tests.mmrScore lam m y ≤ Tests.mmrScore lam m x := by
  unfold Tests.mmrScore
  have hx : (0 : ℚ) < (x : ℚ) + 1 := by positivity
  have hc : (x : ℚ) ≤ (y : ℚ) := by exact_mod_cast hxy
  have h1 : (1 : ℚ) / ((y : ℚ) + 1) ≤ 1 / ((x : ℚ) + 1) :=
    one_div_le_one_div_of_le hx (by linarith)
  have h2 := mul_le_mul_of_nonneg_left h1 hlam
  linarith

/-- Invariant of the MMR while-loop on consecutive index segments: having
selected `0 .. m-1`, with `m .. n-1` remaining, the loop always extends the
selection with the smallest remaining index and ends with `0 .. k-1`. -/
theorem mmrLoop_range (lam : ℚ) (hlam : 0 ≤ lam) (k n : ℕ) (hk : k < n) :
    ∀ fuel m, fuel = n - m → 1 ≤ m → m ≤ k →
      Tests.mmrLoop lam k fuel (List.range m) (List.range' m fuel) = List.range k := by
  intro fuel
  induction fuel with
  | zero =>
    intro m hf h1 hmk
    omega
  | succ fuel ih =>
    intro m hf h1 hmk
    rw [List.range'_succ]
    rcases Nat.lt_or_ge m k with hmlt | hmge
    · simp only [Tests.mmrLoop, List.length_range]
      rw [if_pos hmlt]
      have hbest : Tests.bestBy (Tests.mmrScore lam m) m (List.range' (m + 1) fuel) = m := by
        apply bestBy_of_le
        intro y hy
        exact mmrScore_anti lam hlam m (by have := (List.mem_range'_1.mp hy).1; omega)
      rw [hbest, List.erase_cons_head, ← List.range_succ]
      exact ih (m + 1) (by omega) (by omega) (by omega)
    · have hm : m = k := by omega
      subst hm
      simp only [Tests.mmrLoop, List.length_range]
      rw [if_neg (lt_irrefl m)]

/-- Reading a list back at indices `0 .. k-1` yields its `k`-prefix. -/
theorem map_getD_range (l : List Tests.ProductMetadata) (k : ℕ) (hk : k ≤ l.length) :
    (List.range k).map (fun i => l.getD i default) = l.take k := by
  induction k with
  | zero => simp
  | succ k ih =>
    rw [List.range_succ, List.map_append, ih (by omega), List.take_succ]
    simp only [List.map_cons, List.map_nil]
    rw [List.getD_eq_getElem?_getD, List.getElem?_eq_getElem (by omega)]
    rfl

/-- Claim C10: for `k >= 1` and `lambda` in `[0, 1]`, the mock MMR returns
the first `min(k, len(C))` candidates in original order — the diversity
term is candidate-independent, so the greedy step always picks the
smallest remaining index and the categories and `lambda` have no effect on
the selection. -/
theorem mmr_is_prefix (C : List Tests.ProductMetadata) (k : ℕ) (lam : ℚ)
    (hk : 1 ≤ k) (h0 : 0 ≤ lam) (h1 : lam ≤ 1) :
    Tests.maximal_marginal_relevance C k lam = C.take k := by
  unfold Tests.maximal_marginal_relevance
  rcases le_or_lt C.length k with hlen | hlen
  · rw [if_pos hlen, List.take_of_length_le hlen]
  · rw [if_neg (by omega)]
    simp only [List.length_range']
    have h01 : List.range 1 = [0] := rfl
    have := mmrLoop_range lam h0 k C.length hlen (C.length - 1) 1 (by omega) (by omega)
      (by omega)
    rw [h01] at this
    simp only [this]
    exact map_getD_range C k (by omega)

/-- Witness for C10: on the concrete three-candidate corpus with `k = 2`
and `lambda = 1/2`, MMR returns the first two candidates. -/
theorem mmr_is_prefix_witness :
    (1 ≤ 2 ∧ (0 : ℚ) ≤ 1 / 2 ∧ (1 / 2 : ℚ) ≤ 1)
    ∧ Tests.maximal_marginal_relevance [prodA, prodB, prodC] 2 (1 / 2)
      = [prodA, prodB, prodC].take 2 :=
  ⟨⟨by norm_num, by norm_num, by norm_num⟩,
    mmr_is_prefix [prodA, prodB, prodC] 2 (1 / 2) (by norm_num) (by norm_num) (by norm_num)⟩

/-- A Python slice whose stop bound is non-positive while the start bound
is non-negative selects nothing. -/
theorem take_drop_nonpos {α : Type _} (l : List α) (s e : ℤ) (he : e ≤ 0) (hs : 0 ≤ s) :
    (l.drop s.toNat).take (e - s).toNat = [] := by
  rw [show (e - s).toNat = 0 from by omega, List.take_zero]

/-- For `page >= 1` the pagination slice is the plain prefix-free window
`drop ((page-1)*size)` then `take size`. -/
theorem paginateSlice_pos {α : Type _} (l : List α) (page : ℤ) (size : ℕ)
    (hp : 1 ≤ page) :
    Server.paginateSlice l page size
      = (l.drop ((page - 1) * (size : ℤ)).toNat).take size := by
  have ha : (0 : ℤ) ≤ (page - 1) * (size : ℤ) :=
    mul_nonneg (by omega) (by positivity)
  simp only [Server.paginateSlice, Server.pySlice]
  rw [if_neg (by omega), if_neg (by omega)]
  set n : ℤ := (l.length : ℤ) with hn
  set a : ℤ := (page - 1) * (size : ℤ) with hA
  rcases le_or_lt n a with hna | han
  · rw [min_eq_right hna, min_eq_right (by omega)]
    rw [show (n - n).toNat = 0 from by omega, List.take_zero,
      List.drop_eq_nil_of_le (by omega), List.take_nil]
  · rw [min_eq_left (le_of_lt han)]
    rcases le_or_lt (a + (size : ℤ)) n with hbn | hbn
    · rw [min_eq_left hbn]
      congr 1
      omega
    · rw [min_eq_right (le_of_lt hbn)]
      rw [List.take_of_length_le (by rw [List.length_drop]; omega),
        List.take_of_length_le (by rw [List.length_drop]; omega)]

/-- Page 0 yields an empty slice: its Python window is `[-size : 0]`,
whose stop bound is 0. -/
theorem paginateSlice_zero {α : Type _} (l : List α) (size : ℕ) (hs : 1 ≤ size) :
    Server.paginateSlice l 0 size = [] := by
  simp only [Server.paginateSlice, Server.pySlice]
  apply take_drop_nonpos <;> split <;> omega

/-- The page count times the page size covers the whole list. -/
theorem length_le_totalPages_mul (n size : ℕ) (hs : 1 ≤ size) :
    n ≤ size * Server.totalPages n size := by
  unfold Server.totalPages
  obtain ⟨q, hq⟩ : ∃ q, (n + size - 1) / size = q := ⟨_, rfl⟩
  rw [hq]
  have hdm := Nat.div_add_mod (n + size - 1) size
  rw [hq] at hdm
  have hrlt : (n + size - 1) % size < size := Nat.mod_lt _ (by omega)
  set r := (n + size - 1) % size with hr
  have h1 : (1 : ℕ) ≤ n + size := by omega
  zify [h1] at hdm
  have hrlt' : (r : ℤ) < (size : ℤ) := by exact_mod_cast hrlt
  have : (n : ℤ) ≤ (size : ℤ) * (q : ℤ) := by linarith
  exact_mod_cast this

/-- All pages but the last are full: one fewer page does not cover the
list (for a non-empty list). -/
theorem totalPages_pred_mul_lt (n size : ℕ) (hs : 1 ≤ size) (hn : 1 ≤ n) :
    size * (Server.totalPages n size - 1) < n := by
  unfold Server.totalPages
  obtain ⟨q, hq⟩ : ∃ q, (n + size - 1) / size = q := ⟨_, rfl⟩
  rw [hq]
  have hdm := Nat.div_add_mod (n + size - 1) size
  rw [hq] at hdm
  have hrlt : (n + size - 1) % size < size := Nat.mod_lt _ (by omega)
  set r := (n + size - 1) % size with hr
  have hq1 : 1 ≤ q := by
    rcases Nat.eq_zero_or_pos q with h0 | h1
    · subst h0
      simp only [Nat.mul_zero, Nat.zero_add] at hdm
      omega
    · exact h1
  have h1 : (1 : ℕ) ≤ n + size := by omega
  zify [h1] at hdm
  have hrlt' : (r : ℤ) < (size : ℤ) := by exact_mod_cast hrlt
  have hgoal : (size : ℤ) * ((q : ℤ) - 1) < (n : ℤ) := by linarith
  have : (size : ℤ) * ((q - 1 : ℕ) : ℤ) < (n : ℤ) := by
    rwa [show ((q - 1 : ℕ) : ℤ) = (q : ℤ) - 1 from by omega]
  exact_mod_cast this

/-- The empty list needs zero pages. -/
theorem totalPages_zero (size : ℕ) (hs : 1 ≤ size) : Server.totalPages 0 size = 0 := by
  unfold Server.totalPages
  exact Nat.div_eq_of_lt (by omega)

/-- A page beyond the page count yields an empty slice: its start offset
is at or past the end of the list. -/
theorem paginateSlice_beyond {α : Type _} (l : List α) (page : ℤ) (size : ℕ)
    (hs : 1 ≤ size) (hp : 1 ≤ page)
    (h : (Server.totalPages l.length size : ℤ) < page) :
    Server.paginateSlice l page size = [] := by
  rw [paginateSlice_pos l page size hp]
  rw [List.drop_eq_nil_of_le, List.take_nil]
  have h1 : l.length ≤ size * Server.totalPages l.length size :=
    length_le_totalPages_mul l.length size hs
  have h2 : (size : ℤ) * (Server.totalPages l.length size : ℤ) ≤ (page - 1) * (size : ℤ) := by
    rw [mul_comm]
    exact mul_le_mul_of_nonneg_right (by omega) (by positivity)
  have h3 : (l.length : ℤ) ≤ (size : ℤ) * (Server.totalPages l.length size : ℤ) := by
    exact_mod_cast h1
  have h4 : (l.length : ℤ) ≤ (page - 1) * (size : ℤ) := le_trans h3 h2
  omega

/-- Claim C6, amended: for `size >= 1` and `page >= 0`, `search` reports
`total_found = len(filtered)`, `total_pages = ceil(len/size)` (zero for an
empty list, characterised by `size*(tp-1) < len <= size*tp` otherwise) and
returns the slice `filtered[(page-1)*size : page*size]`; a page beyond
`total_pages` or equal to 0 yields an empty slice and pagination is a
total function.  (The original claim's "any page below 1" fails for
negative pages, where Python's negative-index slicing can return items —
see the counterexample.) -/
theorem paginate_amended (metadata : List Server.ProductMetadata) (query : String)
    (page : ℤ) (size : ℕ) (hs : 1 ≤ size) (hp : 0 ≤ page) :
    (Server.search metadata query page size).total_found
        = (Server.filteredProducts metadata query).length
    ∧ (Server.search metadata query page size).total_pages
        = Server.totalPages (Server.filteredProducts metadata query).length size
    ∧ (Server.search metadata query page size).products
        = Server.paginateSlice (Server.filteredProducts metadata query) page size
    ∧ (1 ≤ page → Server.paginateSlice (Server.filteredProducts metadata query) page size
        = ((Server.filteredProducts metadata query).drop
            ((page - 1) * (size : ℤ)).toNat).take size)
    ∧ (page = 0 → Server.paginateSlice (Server.filteredProducts metadata query) page size = [])
    ∧ ((Server.totalPages (Server.filteredProducts metadata query).length size : ℤ) < page →
        Server.paginateSlice (Server.filteredProducts metadata query) page size = [])
    ∧ ((Server.filteredProducts metadata query).length = 0 →
        Server.totalPages (Server.filteredProducts metadata query).length size = 0)
    ∧ (1 ≤ (Server.filteredProducts metadata query).length →
        size * (Server.totalPages (Server.filteredProducts metadata query).length size - 1)
            < (Server.filteredProducts metadata query).length
        ∧ (Server.filteredProducts metadata query).length
            ≤ size * Server.totalPages (Server.filteredProducts metadata query).length size) := by
  refine ⟨rfl, rfl, rfl, ?_, ?_, ?_, ?_, ?_⟩
  · intro h1
    exact paginateSlice_pos _ page size h1
  · intro h0
    subst h0
    exact paginateSlice_zero _ size hs
  · intro hbig
    have hp1 : 1 ≤ page := by
      have : (0 : ℤ) ≤ (Server.totalPages (Server.filteredProducts metadata query).length size : ℤ) := by
        positivity
      omega
    exact paginateSlice_beyond _ page size hs hp1 hbig
  · intro h0
    rw [h0]
    exact totalPages_zero size hs
  · intro h1
    exact ⟨totalPages_pred_mul_lt _ size hs h1, length_le_totalPages_mul _ size hs⟩

/-- Witness for the amended C6: the 25-item catalogue at `page = 4`,
`size = 8` satisfies all the pagination facts. -/
theorem paginate_amended_witness :
    ((1 : ℕ) ≤ 8 ∧ (0 : ℤ) ≤ 4)
    ∧ ((Server.search catalog25 "item" 4 8).total_found
        = (Server.filteredProducts catalog25 "item").length
      ∧ (Server.search catalog25 "item" 4 8).total_pages
        = Server.totalPages (Server.filteredProducts catalog25 "item").length 8
      ∧ (Server.search catalog25 "item" 4 8).products
        = Server.paginateSlice (Server.filteredProducts catalog25 "item") 4 8
      ∧ (1 ≤ (4 : ℤ) → Server.paginateSlice (Server.filteredProducts catalog25 "item") 4 8
        = ((Server.filteredProducts catalog25 "item").drop (((4 : ℤ) - 1) * (8 : ℤ)).toNat).take 8)
      ∧ ((4 : ℤ) = 0 → Server.paginateSlice (Server.filteredProducts catalog25 "item") 4 8 = [])
      ∧ ((Server.totalPages (Server.filteredProducts catalog25 "item").length 8 : ℤ) < 4 →
        Server.paginateSlice (Server.filteredProducts catalog25 "item") 4 8 = [])
      ∧ ((Server.filteredProducts catalog25 "item").length = 0 →
        Server.totalPages (Server.filteredProducts catalog25 "item").length 8 = 0)
      ∧ (1 ≤ (Server.filteredProducts catalog25 "item").length →
        8 * (Server.totalPages (Server.filteredProducts catalog25 "item").length 8 - 1)
            < (Server.filteredProducts catalog25 "item").length
        ∧ (Server.filteredProducts catalog25 "item").length
            ≤ 8 * Server.totalPages (Server.filteredProducts catalog25 "item").length 8)) :=
  ⟨⟨by decide, by decide⟩, paginate_amended catalog25 "item" 4 8 (by decide) (by decide)⟩

/-- Claim C9: when the lowercased query matches no product field, `search`
falls back to the whole catalogue: `total_found` is the catalogue size and
the returned page is a slice of the full catalogue. -/
theorem search_no_match_returns_all (metadata : List Server.ProductMetadata)
    (query : String) (page : ℤ) (size : ℕ) (hne : metadata ≠ [])
    (hnm : ∀ p ∈ metadata, Server.matchesQuery query p = false) :
    (Server.search metadata query page size).total_found = metadata.length
    ∧ (Server.search metadata query page size).products
      = Server.paginateSlice metadata page size := by
  have hfil : metadata.filter (Server.matchesQuery query) = [] :=
    List.filter_eq_nil_iff.mpr (fun a ha => by simp [hnm a ha])
  have hf : Server.filteredProducts metadata query = metadata := by
    unfold Server.filteredProducts
    rw [hfil]
    rfl
  unfold Server.search
  rw [hf]
  exact ⟨rfl, rfl⟩

/-- Witness for C9: the demo catalogue with the unmatched query "zzz"
reports both demo products as found. -/
theorem search_no_match_returns_all_witness :
    (Server.demoProducts ≠ []
      ∧ (∀ p ∈ Server.demoProducts, Server.matchesQuery "zzz" p = false))
    ∧ ((Server.search Server.demoProducts "zzz" 1 8).total_found = Server.demoProducts.length
      ∧ (Server.search Server.demoProducts "zzz" 1 8).products
        = Server.paginateSlice Server.demoProducts 1 8) :=
  ⟨⟨by decide, by decide⟩,
    search_no_match_returns_all Server.demoProducts "zzz" 1 8 (by decide) (by decide)⟩

/-- Counterexample to claim C6 as stated: for a 25-element list and
`size = 8`, the page `-1` (a page "below 1") does not yield an empty
slice — Python's negative-index slicing selects 8 elements. -/
theorem paginate_negative_page_returns_items :
    (Server.paginateSlice catalog25 (-1) 8).length = 8
    ∧ (Server.search catalog25 "item" (-1) 8).products.length = 8 := by
  decide

/-- Lookup misses exactly the keys that are absent. -/
theorem dictGet_eq_none {β : Type _} (d : List (String × β)) (k : String) :
    dictGet d k = none ↔ k ∉ d.map Prod.fst := by
  induction d with
  | nil => simp [dictGet]
  | cons p ps ih =>
    by_cases h : p.1 = k
    · simp [dictGet, h]
    · rw [show dictGet (p :: ps) k = dictGet ps k from by simp [dictGet, h], ih]
      simp only [List.map_cons, List.mem_cons, not_or]
      constructor
      · exact fun hk => ⟨fun he => h he.symm, hk⟩
      · exact fun hk => hk.2

/-- The membership test is the decided key membership. -/
theorem dictHas_eq_decide {β : Type _} (d : List (String × β)) (k : String) :
    dictHas d k = decide (k ∈ d.map Prod.fst) := by
  induction d with
  | nil => simp [dictHas]
  | cons p ps ih =>
    by_cases h : p.1 = k
    · simp [dictHas, h]
    · simp only [dictHas, List.map_cons]
      rw [if_neg h, ih]
      rw [decide_eq_decide]
      simp only [List.mem_cons]
      constructor
      · exact fun hk => Or.inr hk
      · rintro (he | hk)
        · exact absurd he.symm h
        · exact hk

/-- Assignment to a fresh key appends the pair at the end. -/
theorem dictSet_fresh {β : Type _} (d : List (String × β)) (k : String) (v : β)
    (h : k ∉ d.map Prod.fst) : dictSet d k v = d ++ [(k, v)] := by
  induction d with
  | nil => rfl
  | cons p ps ih =>
    simp only [List.map_cons, List.mem_cons, not_or] at h
    simp only [dictSet]
    rw [if_neg (fun he => h.1 he.symm), ih h.2]
    rfl

/-- Lookup in a concatenation stays in the left part when the key is
there. -/
theorem dictGet_append_left {β : Type _} (d₁ d₂ : List (String × β)) (k : String)
    (h : k ∈ d₁.map Prod.fst) : dictGet (d₁ ++ d₂) k = dictGet d₁ k := by
  induction d₁ with
  | nil => simp at h
  | cons p ps ih =>
    by_cases hp : p.1 = k
    · simp [dictGet, hp]
    · simp only [List.map_cons, List.mem_cons] at h
      rcases h with he | hk
      · exact absurd he.symm hp
      · simp [dictGet, hp, ih hk]

/-- Lookup in a concatenation falls to the right part when the key is not
in the left part. -/
theorem dictGet_append_right {β : Type _} (d₁ d₂ : List (String × β)) (k : String)
    (h : k ∉ d₁.map Prod.fst) : dictGet (d₁ ++ d₂) k = dictGet d₂ k := by
  induction d₁ with
  | nil => rfl
  | cons p ps ih =>
    simp only [List.map_cons, List.mem_cons, not_or] at h
    have hne : ¬p.1 = k := fun he => h.1 he.symm
    simp [dictGet, hne, ih h.2]

/-- Lookup after a key-preserving value rewrite. -/
theorem dictGet_map_value {β γ : Type _} (d : List (String × β)) (u : String → β → γ)
    (k : String) :
    dictGet (d.map (fun p => (p.1, u p.1 p.2))) k = (dictGet d k).map (u k) := by
  induction d with
  | nil => rfl
  | cons p ps ih =>
    by_cases h : p.1 = k
    · subst h
      simp [dictGet]
    · simp [dictGet, h, ih]

/-- Lookup in a dictionary whose values are a function of the key alone. -/
theorem dictGet_map_key {α β : Type _} (l : List α) (f : α → String) (w : String → β)
    (k : String) :
    dictGet (l.map (fun c => (f c, w (f c)))) k
      = if k ∈ l.map f then some (w k) else none := by
  induction l with
  | nil => simp [dictGet]
  | cons c cs ih =>
    by_cases h : f c = k
    · simp [dictGet, h]
    · rw [show dictGet ((c :: cs).map fun c => (f c, w (f c))) k
          = dictGet (cs.map fun c => (f c, w (f c))) k from by simp [dictGet, h], ih]
      by_cases hk : k ∈ cs.map f
      · simp [hk, List.mem_cons, Or.inr hk]
      · rw [if_neg hk, if_neg]
        simp only [List.map_cons, List.mem_cons, not_or]
        exact ⟨fun he => h he.symm, hk⟩

/-- Everything in an updated dictionary was there before or is the new
pair. -/
theorem mem_dictSet {β : Type _} (d : List (String × β)) (k : String) (v : β)
    (p : String × β) (h : p ∈ dictSet d k v) : p ∈ d ∨ p = (k, v) := by
  induction d with
  | nil => simpa [dictSet] using h
  | cons q qs ih =>
    simp only [dictSet] at h
    split at h
    · rcases List.mem_cons.mp h with he | hq
      · exact Or.inr he
      · exact Or.inl (List.mem_cons_of_mem _ hq)
    · rcases List.mem_cons.mp h with he | hq
      · exact Or.inl (he ▸ List.mem_cons_self _ _)
      · rcases ih hq with h1 | h2
        · exact Or.inl (List.mem_cons_of_mem _ h1)
        · exact Or.inr h2

/-- A successful lookup exhibits a member pair. -/
theorem dictGet_mem {β : Type _} (d : List (String × β)) (k : String) (v : β)
    (h : dictGet d k = some v) : (k, v) ∈ d := by
  induction d with
  | nil => simp [dictGet] at h
  | cons p ps ih =>
    simp only [dictGet] at h
    split at h
    · rename_i he
      obtain rfl : p.2 = v := by injection h
      exact he ▸ List.mem_cons_self _ _
    · exact List.mem_cons_of_mem _ (ih h)

/-- Updating can only add the assigned key to the key set. -/
theorem dictHas_dictSet {β : Type _} (d : List (String × β)) (k : String) (v : β)
    (x : String) :
    dictHas (dictSet d k v) x = (dictHas d x || decide (x = k)) := by
  induction d with
  | nil =>
    by_cases h : k = x
    · simp [dictSet, dictHas, h]
    · have h' : ¬x = k := fun he => h he.symm
      simp [dictSet, dictHas, h, h']
  | cons p ps ih =>
    simp only [dictSet]
    by_cases hpk : p.1 = k
    · rw [if_pos hpk]
      by_cases hxk : x = k
      · subst hxk
        have hpx : p.1 = x := hpk
        simp [dictHas, hpx]
      · have h1 : ¬k = x := fun he => hxk he.symm
        have h2 : ¬p.1 = x := fun he => h1 (hpk ▸ he)
        simp [dictHas, h1, h2, hxk]
    · rw [if_neg hpk]
      by_cases hpx : p.1 = x
      · simp [dictHas, hpx]
      · simp [dictHas, hpx, ih]

/-- With distinct keys, a member pair is exactly what lookup returns. -/
theorem dictGet_of_mem_nodup {β : Type _} (d : List (String × β))
    (hnd : (d.map Prod.fst).Nodup) (p : String × β) (hp : p ∈ d) :
    dictGet d p.1 = some p.2 := by
  induction d with
  | nil => simp at hp
  | cons q qs ih =>
    simp only [List.map_cons, List.nodup_cons] at hnd
    rcases List.mem_cons.mp hp with he | hq
    · subst he
      simp [dictGet]
    · have hne : q.1 ≠ p.1 := fun he =>
        hnd.1 (he ▸ List.mem_map_of_mem Prod.fst hq)
      simp [dictGet, hne, ih hnd.2 hq]

/-- With distinct keys, updating a present key rewrites its value in
place. -/
theorem dictSet_present {β : Type _} (d : List (String × β)) (k : String) (v : β)
    (hnd : (d.map Prod.fst).Nodup) (hk : k ∈ d.map Prod.fst) :
    dictSet d k v = d.map (fun p => (p.1, if p.1 = k then v else p.2)) := by
  induction d with
  | nil => simp at hk
  | cons q qs ih =>
    simp only [List.map_cons, List.nodup_cons] at hnd
    by_cases h : q.1 = k
    · simp only [dictSet, List.map_cons]
      rw [if_pos h, if_pos h]
      have hqs : qs.map (fun p => (p.1, if p.1 = k then v else p.2)) = qs := by
        have h1 : ∀ p ∈ qs, (p.1, if p.1 = k then v else p.2) = (id p : String × β) := by
          intro p hp
          have hne : ¬p.1 = k := fun he => hnd.1 (by
            rw [show q.1 = p.1 from h.trans he.symm]
            exact List.mem_map_of_mem Prod.fst hp)
          rw [if_neg hne]
          rfl
        rw [List.map_congr_left h1, List.map_id]
      rw [hqs, ← h]
    · simp only [List.map_cons, List.mem_cons] at hk
      rcases hk with he | hk
      · exact absurd he.symm h
      · simp only [dictSet, List.map_cons]
        rw [if_neg h, if_neg h, ih hnd.2 hk]

/-- Keys are unchanged by a key-preserving value rewrite. -/
theorem map_fst_value {β γ : Type _} (d : List (String × β)) (u : String → β → γ) :
    (d.map (fun p => (p.1, u p.1 p.2))).map Prod.fst = d.map Prod.fst := by
  rw [List.map_map]
  rfl

/-- Keys of the explicit score list are the channel's candidate ids. -/
theorem scoreList_map_fst (l : List Tests.ProductMetadata) :
    ∀ i, (Tests.scoreList i l).map Prod.fst = l.map Tests.ProductMetadata.uniq_id := by
  induction l with
  | nil => intro i; rfl
  | cons c cs ih =>
    intro i
    simp [Tests.scoreList, ih]

/-- Lookup in the explicit score list finds the first rank, offset by the
starting index. -/
theorem dictGet_scoreList (l : List Tests.ProductMetadata) :
    ∀ (i : ℕ) (id : String),
      dictGet (Tests.scoreList i l) id
        = (Tests.rankOf l id).map (fun r : ℕ => 1 / ((i : ℚ) + (r : ℚ) + 1)) := by
  induction l with
  | nil => intro i id; rfl
  | cons c cs ih =>
    intro i id
    by_cases h : c.uniq_id = id
    · simp only [Tests.scoreList, dictGet, Tests.rankOf]
      rw [if_pos h, if_pos h]
      simp only [Option.map_some']
      congr 1
      push_cast
      ring
    · simp only [Tests.scoreList, dictGet, Tests.rankOf]
      rw [if_neg h, if_neg h, ih (i + 1) id]
      cases hr : Tests.rankOf cs id with
      | none => rfl
      | some r =>
        simp only [Option.map_some']
        congr 1
        push_cast
        ring

/-- The rank lookup misses exactly the absent ids. -/
theorem rankOf_eq_none (l : List Tests.ProductMetadata) (id : String) :
    Tests.rankOf l id = none ↔ id ∉ l.map Tests.ProductMetadata.uniq_id := by
  induction l with
  | nil => simp [Tests.rankOf]
  | cons c cs ih =>
    by_cases h : c.uniq_id = id
    · simp [Tests.rankOf, h]
    · simp only [Tests.rankOf]
      rw [if_neg h, Option.map_eq_none', ih]
      simp only [List.map_cons, List.mem_cons, not_or]
      constructor
      · exact fun hk => ⟨fun he => h he.symm, hk⟩
      · exact fun hk => hk.2

/-- On a duplicate-free channel the candidate at position `r` has rank
`r`. -/
theorem rankOf_getElem (l : List Tests.ProductMetadata)
    (hnd : (l.map Tests.ProductMetadata.uniq_id).Nodup) :
    ∀ (r : ℕ) (c : Tests.ProductMetadata), l[r]? = some c →
      Tests.rankOf l c.uniq_id = some r := by
  induction l with
  | nil => intro r c h; simp at h
  | cons c0 cs ih =>
    intro r c h
    simp only [List.map_cons, List.nodup_cons] at hnd
    cases r with
    | zero =>
      simp only [List.getElem?_cons_zero] at h
      obtain rfl : c0 = c := by injection h
      simp [Tests.rankOf]
    | succ r =>
      simp only [List.getElem?_cons_succ] at h
      have hc : c ∈ cs := by
        have := List.getElem?_eq_some.mp h
        obtain ⟨hlt, hget⟩ := this
        exact hget ▸ List.getElem_mem hlt
      have hne : ¬c0.uniq_id = c.uniq_id := fun he =>
        hnd.1 (by rw [he]; exact List.mem_map_of_mem _ hc)
      simp only [Tests.rankOf]
      rw [if_neg hne, ih hnd.2 r c h]
      rfl

/-- Reading the ids of a duplicate-free channel back through its own score
list reproduces the score list. -/
theorem map_getD_scoreList (l : List Tests.ProductMetadata) :
    ∀ i, (l.map Tests.ProductMetadata.uniq_id).Nodup →
      l.map (fun c => (c.uniq_id, (dictGet (Tests.scoreList i l) c.uniq_id).getD 0))
        = Tests.scoreList i l := by
  induction l with
  | nil => intro i _; rfl
  | cons c0 cs ih =>
    intro i hnd
    simp only [List.map_cons, List.nodup_cons] at hnd
    rw [show Tests.scoreList i (c0 :: cs)
        = (c0.uniq_id, 1 / ((i : ℚ) + 1)) :: Tests.scoreList (i + 1) cs from rfl]
    simp only [List.map_cons]
    congr 1
    · simp [dictGet]
    · have hcong : ∀ c ∈ cs,
          (c.uniq_id,
            (dictGet ((c0.uniq_id, 1 / ((i : ℚ) + 1)) :: Tests.scoreList (i + 1) cs)
              c.uniq_id).getD 0)
            = (c.uniq_id, (dictGet (Tests.scoreList (i + 1) cs) c.uniq_id).getD 0) := by
        intro c hc
        have hne : ¬c0.uniq_id = c.uniq_id := fun he =>
          hnd.1 (by rw [he]; exact List.mem_map_of_mem _ hc)
        simp [dictGet, hne]
      rw [List.map_congr_left hcong, ih (i + 1) hnd.2]

/-- Folding fresh distinct keys into a dictionary appends the
corresponding pairs in order. -/
theorem foldl_dictSet_fresh {α β : Type _} (f : α → String) (g : α → β) :
    ∀ (l : List α) (d : List (String × β)),
      (l.map f).Nodup → (∀ c ∈ l, f c ∉ d.map Prod.fst) →
      l.foldl (fun d c => dictSet d (f c) (g c)) d = d ++ l.map (fun c => (f c, g c)) := by
  intro l
  induction l with
  | nil => intro d _ _; simp
  | cons c cs ih =>
    intro d hnd hfresh
    simp only [List.map_cons, List.nodup_cons] at hnd
    simp only [List.foldl_cons]
    rw [dictSet_fresh d (f c) (g c) (hfresh c (List.mem_cons_self c cs))]
    have hfresh2 : ∀ c' ∈ cs, f c' ∉ (d ++ [(f c, g c)]).map Prod.fst := by
      intro c' hc'
      simp only [List.map_append, List.mem_append, not_or, List.map_cons, List.map_nil,
        List.mem_singleton]
      refine ⟨hfresh c' (List.mem_cons_of_mem c hc'), ?_⟩
      exact fun he => hnd.1 (by rw [← he]; exact List.mem_map_of_mem _ hc')
    rw [ih (d ++ [(f c, g c)]) hnd.2 hfresh2]
    simp

/-- The reciprocal-rank loop over a duplicate-free channel produces the
explicit score list. -/
theorem rankScoresAux_eq (l : List Tests.ProductMetadata) :
    ∀ (i : ℕ) (d : List (String × ℚ)),
      (l.map Tests.ProductMetadata.uniq_id).Nodup →
      (∀ c ∈ l, c.uniq_id ∉ d.map Prod.fst) →
      Tests.rankScoresAux i l d = d ++ Tests.scoreList i l := by
  induction l with
  | nil => intro i d _ _; simp [Tests.rankScoresAux, Tests.scoreList]
  | cons c cs ih =>
    intro i d hnd hfresh
    simp only [List.map_cons, List.nodup_cons] at hnd
    simp only [Tests.rankScoresAux]
    rw [dictSet_fresh d c.uniq_id _ (hfresh c (List.mem_cons_self c cs))]
    have hfresh2 : ∀ c' ∈ cs,
        c'.uniq_id ∉ (d ++ [(c.uniq_id, 1 / ((i : ℚ) + 1))]).map Prod.fst := by
      intro c' hc'
      simp only [List.map_append, List.mem_append, not_or, List.map_cons, List.map_nil,
        List.mem_singleton]
      refine ⟨hfresh c' (List.mem_cons_of_mem c hc'), ?_⟩
      exact fun he => hnd.1 (by rw [← he]; exact List.mem_map_of_mem _ hc')
    rw [ih (i + 1) (d ++ [(c.uniq_id, 1 / ((i : ℚ) + 1))]) hnd.2 hfresh2]
    simp [Tests.scoreList]

/-- `rankScores` on a duplicate-free channel is the explicit score list. -/
theorem rankScores_eq (l : List Tests.ProductMetadata)
    (hnd : (l.map Tests.ProductMetadata.uniq_id).Nodup) :
    Tests.rankScores l = Tests.scoreList 0 l := by
  unfold Tests.rankScores
  rw [rankScoresAux_eq l 0 [] hnd (by simp)]
  rfl

/-- Looking a candidate id up in its channel's score dictionary yields the
channel's reciprocal-rank contribution. -/
theorem dictGet_rankScores (l : List Tests.ProductMetadata)
    (hnd : (l.map Tests.ProductMetadata.uniq_id).Nodup) (id : String) :
    dictGet (Tests.rankScores l) id = Tests.channelScore l id := by
  rw [rankScores_eq l hnd, dictGet_scoreList]
  unfold Tests.channelScore
  cases hr : Tests.rankOf l id with
  | none => rfl
  | some r =>
    simp only [Option.map_some']
    congr 1
    norm_num

/-- Membership in a concatenated dictionary. -/
theorem dictHas_append {β : Type _} (d₁ d₂ : List (String × β)) (x : String) :
    dictHas (d₁ ++ d₂) x = (dictHas d₁ x || dictHas d₂ x) := by
  induction d₁ with
  | nil => simp [dictHas]
  | cons p ps ih =>
    by_cases h : p.1 = x <;> simp [dictHas, h, ih]

/-- Two key-preserving value rewrites compose. -/
theorem map_value_comp {β γ δ : Type _} (d : List (String × β)) (u : String → β → γ)
    (w : String → γ → δ) :
    (d.map (fun p => (p.1, u p.1 p.2))).map (fun p => (p.1, w p.1 p.2))
      = d.map (fun p => (p.1, w p.1 (u p.1 p.2))) := by
  rw [List.map_map]
  rfl

/-- Folding the image channel into a duplicate-free score dictionary adds
the image score to present keys and appends fresh image ids in channel
order: the explicit `mergeImage` form. -/
theorem imageFold_eq (g : String → ℚ) :
    ∀ (l : List Tests.ProductMetadata) (d : List (String × ℚ)),
      (l.map Tests.ProductMetadata.uniq_id).Nodup →
      (d.map Prod.fst).Nodup →
      l.foldl (fun d c =>
          if dictHas d c.uniq_id then
            dictSet d c.uniq_id ((dictGet d c.uniq_id).getD 0 + g c.uniq_id)
          else dictSet d c.uniq_id (g c.uniq_id)) d
        = Tests.mergeImage g d l := by
  intro l
  induction l with
  | nil =>
    intro d _ _
    simp [Tests.mergeImage]
  | cons c cs ih =>
    intro d hnd hkey
    simp only [List.map_cons, List.nodup_cons] at hnd
    simp only [List.foldl_cons]
    by_cases hin : dictHas d c.uniq_id = true
    · rw [if_pos hin]
      have hmem : c.uniq_id ∈ d.map Prod.fst := by
        rw [dictHas_eq_decide] at hin
        exact of_decide_eq_true hin
      rw [dictSet_present d c.uniq_id _ hkey hmem]
      have hkeys : ((d.map (fun p =>
          (p.1, if p.1 = c.uniq_id then (dictGet d c.uniq_id).getD 0 + g c.uniq_id
            else p.2))).map Prod.fst) = d.map Prod.fst :=
        map_fst_value d
          (fun k v => if k = c.uniq_id then (dictGet d c.uniq_id).getD 0 + g c.uniq_id else v)
      have hkey' : ((d.map (fun p =>
          (p.1, if p.1 = c.uniq_id then (dictGet d c.uniq_id).getD 0 + g c.uniq_id
            else p.2))).map Prod.fst).Nodup := by
        rw [hkeys]; exact hkey
      rw [ih _ hnd.2 hkey']
      unfold Tests.mergeImage
      congr 1
      · rw [List.map_map]
        apply List.map_congr_left
        intro p hp
        dsimp only [Function.comp]
        by_cases hpc : p.1 = c.uniq_id
        · have hv : dictGet d c.uniq_id = some p.2 := by
            rw [← hpc]
            exact dictGet_of_mem_nodup d hkey p hp
          have hnotcs : p.1 ∉ cs.map Tests.ProductMetadata.uniq_id := by
            rw [hpc]; exact hnd.1
          rw [if_pos hpc, hv, if_neg hnotcs]
          simp only [List.map_cons, List.mem_cons]
          rw [if_pos (Or.inl hpc)]
          simp [hpc]
        · rw [if_neg hpc]
          simp only [List.map_cons, List.mem_cons]
          by_cases hcs : p.1 ∈ cs.map Tests.ProductMetadata.uniq_id
          · rw [if_pos hcs, if_pos (Or.inr hcs)]
          · rw [if_neg hcs, if_neg (fun hor => hor.elim (fun h1 => hpc h1) (fun h2 => hcs h2))]
      · have hhas : ∀ x, dictHas (d.map (fun p =>
            (p.1, if p.1 = c.uniq_id then (dictGet d c.uniq_id).getD 0 + g c.uniq_id
              else p.2))) x = dictHas d x := by
          intro x
          rw [dictHas_eq_decide, dictHas_eq_decide, hkeys]
        have hfc : (!dictHas d c.uniq_id) = false := by rw [hin]; rfl
        rw [List.filter_congr (fun c' _ => by rw [hhas c'.uniq_id] :
            ∀ c' ∈ cs, (!dictHas (d.map (fun p =>
              (p.1, if p.1 = c.uniq_id then (dictGet d c.uniq_id).getD 0 + g c.uniq_id
                else p.2))) c'.uniq_id) = (!dictHas d c'.uniq_id))]
        rw [List.filter_cons, hfc]
        simp only [Bool.false_eq_true, if_false]
    · rw [if_neg hin]
      have hmem : c.uniq_id ∉ d.map Prod.fst := by
        intro hmem
        rw [dictHas_eq_decide] at hin
        exact hin (decide_eq_true hmem)
      rw [dictSet_fresh d c.uniq_id _ hmem]
      have hkey' : (((d ++ [(c.uniq_id, g c.uniq_id)]).map Prod.fst)).Nodup := by
        rw [List.map_append, List.nodup_append]
        refine ⟨hkey, List.nodup_singleton _, ?_⟩
        intro x hx
        simp only [List.map_cons, List.map_nil, List.mem_singleton]
        exact fun he => hmem (he ▸ hx)
      rw [ih _ hnd.2 hkey']
      unfold Tests.mergeImage
      rw [List.map_append]
      have hsingle : ([(c.uniq_id, g c.uniq_id)].map (fun p =>
          (p.1, if p.1 ∈ cs.map Tests.ProductMetadata.uniq_id then p.2 + g p.1 else p.2)))
          = [(c.uniq_id, g c.uniq_id)] := by
        simp only [List.map_cons, List.map_nil]
        rw [if_neg hnd.1]
      rw [hsingle]
      have hfilter : cs.filter (fun c' => !dictHas (d ++ [(c.uniq_id, g c.uniq_id)]) c'.uniq_id)
          = cs.filter (fun c' => !dictHas d c'.uniq_id) := by
        apply List.filter_congr
        intro c' hc'
        rw [dictHas_append]
        have : dictHas [(c.uniq_id, g c.uniq_id)] c'.uniq_id = false := by
          have hne : ¬c.uniq_id = c'.uniq_id := fun he =>
            hnd.1 (by rw [he]; exact List.mem_map_of_mem _ hc')
          simp [dictHas, hne]
        rw [this, Bool.or_false]
      rw [hfilter]
      have hftrue : (!dictHas d c.uniq_id) = true := by
        rw [show dictHas d c.uniq_id = false from by
          cases hdb : dictHas d c.uniq_id
          · rfl
          · exact absurd hdb hin]
        rfl
      rw [List.filter_cons, hftrue]
      simp only [if_true]
      have hmap : d.map (fun p =>
            (p.1, if p.1 ∈ (c :: cs).map Tests.ProductMetadata.uniq_id then p.2 + g p.1
              else p.2))
          = d.map (fun p =>
            (p.1, if p.1 ∈ cs.map Tests.ProductMetadata.uniq_id then p.2 + g p.1 else p.2)) := by
        apply List.map_congr_left
        intro p hp
        have hpc : ¬p.1 = c.uniq_id := fun he =>
          hmem (he ▸ List.mem_map_of_mem Prod.fst hp)
        simp only [List.map_cons, List.mem_cons]
        by_cases hcs : p.1 ∈ cs.map Tests.ProductMetadata.uniq_id
        · rw [if_pos hcs, if_pos (Or.inr hcs)]
        · rw [if_neg hcs, if_neg (fun hor => hor.elim (fun h1 => hpc h1) (fun h2 => hcs h2))]
      rw [hmap]
      simp [List.map_cons, List.append_assoc]

/-- Lookup in the rank-0 score list is the channel contribution. -/
theorem dictGet_scoreList_zero (l : List Tests.ProductMetadata)
    (hnd : (l.map Tests.ProductMetadata.uniq_id).Nodup) (id : String) :
    dictGet (Tests.scoreList 0 l) id = Tests.channelScore l id := by
  rw [← rankScores_eq l hnd]
  exact dictGet_rankScores l hnd id

/-- The text-channel fold of `combined_scores` over a duplicate-free
channel is the explicit score list. -/
theorem textFold_eq (ts : List Tests.ProductMetadata)
    (hnd : (ts.map Tests.ProductMetadata.uniq_id).Nodup) :
    ts.foldl (fun d c =>
        dictSet d c.uniq_id ((dictGet (Tests.rankScores ts) c.uniq_id).getD 0)) []
      = Tests.scoreList 0 ts := by
  have h1 := foldl_dictSet_fresh Tests.ProductMetadata.uniq_id
    (fun c => (dictGet (Tests.rankScores ts) c.uniq_id).getD 0) ts [] hnd (by simp)
  rw [List.nil_append] at h1
  rw [h1, rankScores_eq ts hnd]
  exact map_getD_scoreList ts 0 hnd

/-- The whole `combined_scores` dictionary in explicit form: the text
score list with image scores merged in. -/
theorem combinedScores_eq (ts imgs : List Tests.ProductMetadata)
    (hts : (ts.map Tests.ProductMetadata.uniq_id).Nodup)
    (himgs : (imgs.map Tests.ProductMetadata.uniq_id).Nodup) :
    Tests.combinedScores ts imgs
      = Tests.mergeImage (fun x => (dictGet (Tests.rankScores imgs) x).getD 0)
          (Tests.scoreList 0 ts) imgs := by
  simp only [Tests.combinedScores]
  rw [textFold_eq ts hts]
  exact imageFold_eq (fun x => (dictGet (Tests.rankScores imgs) x).getD 0) imgs
    (Tests.scoreList 0 ts) himgs (by rw [scoreList_map_fst]; exact hts)

/-- Lookup in `combined_scores` yields exactly the summed per-channel
reciprocal-rank contributions. -/
theorem dictGet_combined (ts imgs : List Tests.ProductMetadata)
    (hts : (ts.map Tests.ProductMetadata.uniq_id).Nodup)
    (himgs : (imgs.map Tests.ProductMetadata.uniq_id).Nodup) (id : String) :
    dictGet (Tests.combinedScores ts imgs) id = Tests.combinedExpected ts imgs id := by
  rw [combinedScores_eq ts imgs hts himgs]
  unfold Tests.mergeImage
  have hkeysmap : ((Tests.scoreList 0 ts).map (fun p =>
      (p.1, if p.1 ∈ imgs.map Tests.ProductMetadata.uniq_id
        then p.2 + (dictGet (Tests.rankScores imgs) p.1).getD 0 else p.2))).map Prod.fst
      = ts.map Tests.ProductMetadata.uniq_id := by
    rw [map_fst_value (Tests.scoreList 0 ts)
      (fun k v => if k ∈ imgs.map Tests.ProductMetadata.uniq_id
        then v + (dictGet (Tests.rankScores imgs) k).getD 0 else v), scoreList_map_fst]
  by_cases hid : id ∈ ts.map Tests.ProductMetadata.uniq_id
  · rw [dictGet_append_left _ _ id (by rw [hkeysmap]; exact hid),
      dictGet_map_value (Tests.scoreList 0 ts)
        (fun k v => if k ∈ imgs.map Tests.ProductMetadata.uniq_id
          then v + (dictGet (Tests.rankScores imgs) k).getD 0 else v) id,
      dictGet_scoreList_zero ts hts id]
    unfold Tests.combinedExpected
    cases hct : Tests.channelScore ts id with
    | none =>
      exfalso
      have hnone : Tests.rankOf ts id = none := by
        unfold Tests.channelScore at hct
        exact Option.map_eq_none'.mp hct
      exact (rankOf_eq_none ts id).mp hnone hid
    | some a =>
      simp only [Option.map_some']
      by_cases hidi : id ∈ imgs.map Tests.ProductMetadata.uniq_id
      · cases hci : Tests.channelScore imgs id with
        | none =>
          exfalso
          have hnone : Tests.rankOf imgs id = none := by
            unfold Tests.channelScore at hci
            exact Option.map_eq_none'.mp hci
          exact (rankOf_eq_none imgs id).mp hnone hidi
        | some b =>
          rw [if_pos hidi, dictGet_rankScores imgs himgs id, hci]
          simp
      · have hci : Tests.channelScore imgs id = none := by
          unfold Tests.channelScore
          rw [(rankOf_eq_none imgs id).mpr hidi]
          rfl
        rw [if_neg hidi, hci]
  · rw [dictGet_append_right _ _ id (by rw [hkeysmap]; exact hid)]
    have hct : Tests.channelScore ts id = none := by
      unfold Tests.channelScore
      rw [(rankOf_eq_none ts id).mpr hid]
      rfl
    have hmk := dictGet_map_key
      (imgs.filter (fun c => !dictHas (Tests.scoreList 0 ts) c.uniq_id))
      Tests.ProductMetadata.uniq_id
      (fun x => (dictGet (Tests.rankScores imgs) x).getD 0) id
    rw [hmk]
    have hfiltmem : id ∈ (imgs.filter
          (fun c => !dictHas (Tests.scoreList 0 ts) c.uniq_id)).map
          Tests.ProductMetadata.uniq_id
        ↔ id ∈ imgs.map Tests.ProductMetadata.uniq_id := by
      simp only [List.mem_map, List.mem_filter]
      constructor
      · rintro ⟨c, ⟨hc, _⟩, he⟩
        exact ⟨c, hc, he⟩
      · rintro ⟨c, hc, he⟩
        refine ⟨c, ⟨hc, ?_⟩, he⟩
        rw [dictHas_eq_decide, scoreList_map_fst, he]
        simp [hid]
    unfold Tests.combinedExpected
    rw [hct]
    by_cases hidi : id ∈ imgs.map Tests.ProductMetadata.uniq_id
    · cases hci : Tests.channelScore imgs id with
      | none =>
        exfalso
        have hnone : Tests.rankOf imgs id = none := by
          unfold Tests.channelScore at hci
          exact Option.map_eq_none'.mp hci
        exact (rankOf_eq_none imgs id).mp hnone hidi
      | some b =>
        rw [if_pos (hfiltmem.mpr hidi), dictGet_rankScores imgs himgs id, hci]
        simp
    · have hci : Tests.channelScore imgs id = none := by
        unfold Tests.channelScore
        rw [(rankOf_eq_none imgs id).mpr hidi]
        rfl
      rw [if_neg (fun h => hidi (hfiltmem.mp h)), hci]

/-- Claim C1: in rank fusion each candidate at 0-indexed rank `r` of a
channel contributes the reciprocal-rank score `1/(r+1)` (the smoothing
constant is the default `c = 0`, hard-wired as `1.0 / (i + 1)`), and a
candidate present in both channels gets the sum of its two per-channel
scores as its combined score. -/
theorem rrf_scores (ts imgs : List Tests.ProductMetadata)
    (hts : (ts.map Tests.ProductMetadata.uniq_id).Nodup)
    (himgs : (imgs.map Tests.ProductMetadata.uniq_id).Nodup) :
    (∀ (rt : ℕ) (ct : Tests.ProductMetadata), ts[rt]? = some ct →
        ct.uniq_id ∉ imgs.map Tests.ProductMetadata.uniq_id →
        dictGet (Tests.combinedScores ts imgs) ct.uniq_id = some (1 / ((rt : ℚ) + 1)))
    ∧ (∀ (ri : ℕ) (ci : Tests.ProductMetadata), imgs[ri]? = some ci →
        ci.uniq_id ∉ ts.map Tests.ProductMetadata.uniq_id →
        dictGet (Tests.combinedScores ts imgs) ci.uniq_id = some (1 / ((ri : ℚ) + 1)))
    ∧ (∀ (rt ri : ℕ) (ct ci : Tests.ProductMetadata),
        ts[rt]? = some ct → imgs[ri]? = some ci → ci.uniq_id = ct.uniq_id →
        dictGet (Tests.combinedScores ts imgs) ct.uniq_id
          = some (1 / ((rt : ℚ) + 1) + 1 / ((ri : ℚ) + 1))) := by
  refine ⟨?_, ?_, ?_⟩
  · intro rt ct hget hnot
    rw [dictGet_combined ts imgs hts himgs]
    unfold Tests.combinedExpected
    have h1 : Tests.channelScore ts ct.uniq_id = some (1 / ((rt : ℚ) + 1)) := by
      unfold Tests.channelScore
      rw [rankOf_getElem ts hts rt ct hget]
      rfl
    have h2 : Tests.channelScore imgs ct.uniq_id = none := by
      unfold Tests.channelScore
      rw [(rankOf_eq_none imgs ct.uniq_id).mpr hnot]
      rfl
    rw [h1, h2]
  · intro ri ci hget hnot
    rw [dictGet_combined ts imgs hts himgs]
    unfold Tests.combinedExpected
    have h1 : Tests.channelScore ts ci.uniq_id = none := by
      unfold Tests.channelScore
      rw [(rankOf_eq_none ts ci.uniq_id).mpr hnot]
      rfl
    have h2 : Tests.channelScore imgs ci.uniq_id = some (1 / ((ri : ℚ) + 1)) := by
      unfold Tests.channelScore
      rw [rankOf_getElem imgs himgs ri ci hget]
      rfl
    rw [h1, h2]
  · intro rt ri ct ci hgt hgi heq
    rw [dictGet_combined ts imgs hts himgs]
    unfold Tests.combinedExpected
    have h1 : Tests.channelScore ts ct.uniq_id = some (1 / ((rt : ℚ) + 1)) := by
      unfold Tests.channelScore
      rw [rankOf_getElem ts hts rt ct hgt]
      rfl
    have h2 : Tests.channelScore imgs ct.uniq_id = some (1 / ((ri : ℚ) + 1)) := by
      unfold Tests.channelScore
      rw [← heq, rankOf_getElem imgs himgs ri ci hgi]
      rfl
    rw [h1, h2]

/-- Witness for C1: with text channel `[A, B]` and image channel
`[B, C]`, the shared candidate `B` scores `1/2` from text (rank 1) plus
`1/1` from image (rank 0). -/
theorem rrf_scores_witness :
    ((tsW.map Tests.ProductMetadata.uniq_id).Nodup
      ∧ (isW.map Tests.ProductMetadata.uniq_id).Nodup)
    ∧ dictGet (Tests.combinedScores tsW isW) prodB.uniq_id
      = some (1 / (((1 : ℕ) : ℚ) + 1) + 1 / (((0 : ℕ) : ℚ) + 1)) :=
  ⟨⟨by decide, by decide⟩,
    (rrf_scores tsW isW (by decide) (by decide)).2.2 1 0 prodB prodB rfl rfl rfl⟩

/-- Every entry of the explicit score list is bounded by its leading
score. -/
theorem scoreList_snd_le (l : List Tests.ProductMetadata) :
    ∀ (i : ℕ) (p : String × ℚ), p ∈ Tests.scoreList i l → p.2 ≤ 1 / ((i : ℚ) + 1) := by
  induction l with
  | nil =>
    intro i p hp
    simp [Tests.scoreList] at hp
  | cons c cs ih =>
    intro i p hp
    rcases List.mem_cons.mp hp with rfl | hp'
    · exact le_refl _
    · have h1 := ih (i + 1) p hp'
      have hcast : ((i + 1 : ℕ) : ℚ) + 1 = ((i : ℚ) + 1) + 1 := by push_cast; ring
      rw [hcast] at h1
      have h2 : (1 : ℚ) / (((i : ℚ) + 1) + 1) ≤ 1 / ((i : ℚ) + 1) := by
        apply one_div_le_one_div_of_le
        · positivity
        · linarith
      exact le_trans h1 h2

/-- The explicit score list is sorted by non-increasing score. -/
theorem scoreList_sorted (l : List Tests.ProductMetadata) :
    ∀ i, (Tests.scoreList i l).Pairwise (fun a b => b.2 ≤ a.2) := by
  induction l with
  | nil => intro i; simp [Tests.scoreList]
  | cons c cs ih =>
    intro i
    simp only [Tests.scoreList]
    refine List.pairwise_cons.mpr ⟨?_, ih (i + 1)⟩
    intro q hq
    have h1 := scoreList_snd_le cs (i + 1) q hq
    have hcast : ((i + 1 : ℕ) : ℚ) + 1 = ((i : ℚ) + 1) + 1 := by push_cast; ring
    rw [hcast] at h1
    have h2 : (1 : ℚ) / (((i : ℚ) + 1) + 1) ≤ 1 / ((i : ℚ) + 1) := by
      apply one_div_le_one_div_of_le
      · positivity
      · linarith
    exact le_trans h1 h2

/-- The stable sort leaves an already descending-sorted list unchanged. -/
theorem sortDesc_of_sorted {α : Type _} (s : α → ℚ) (l : List α)
    (h : l.Pairwise (fun a b => s b ≤ s a)) : sortDesc s l = l := by
  induction l with
  | nil => rfl
  | cons x xs ih =>
    have hpw := List.pairwise_cons.mp h
    simp only [sortDesc]
    rw [ih hpw.2]
    cases xs with
    | nil => rfl
    | cons y ys =>
      simp only [insertDesc]
      rw [if_pos (hpw.1 y (List.mem_cons_self y ys))]

/-- With no text channel, `all_candidates` is the image channel keyed by
id. -/
theorem allCandidates_nil_left (imgs : List Tests.ProductMetadata)
    (hnd : (imgs.map Tests.ProductMetadata.uniq_id).Nodup) :
    Tests.allCandidates [] imgs = imgs.map (fun c => (c.uniq_id, c)) := by
  unfold Tests.allCandidates
  simp only [List.foldl_nil]
  have h := foldl_dictSet_fresh Tests.ProductMetadata.uniq_id (fun c => c) imgs [] hnd
    (by simp)
  rw [List.nil_append] at h
  exact h

/-- With no image channel, `all_candidates` is the text channel keyed by
id. -/
theorem allCandidates_nil_right (ts : List Tests.ProductMetadata)
    (hnd : (ts.map Tests.ProductMetadata.uniq_id).Nodup) :
    Tests.allCandidates ts [] = ts.map (fun c => (c.uniq_id, c)) := by
  unfold Tests.allCandidates
  simp only [List.foldl_nil]
  have h := foldl_dictSet_fresh Tests.ProductMetadata.uniq_id (fun c => c) ts [] hnd
    (by simp)
  rw [List.nil_append] at h
  exact h

/-- In the id-keyed candidate dictionary of a duplicate-free channel,
every candidate is found under its own id. -/
theorem dictGet_map_self (l : List Tests.ProductMetadata)
    (hnd : (l.map Tests.ProductMetadata.uniq_id).Nodup) :
    ∀ c ∈ l, dictGet (l.map (fun c => (c.uniq_id, c))) c.uniq_id = some c := by
  induction l with
  | nil => intro c hc; simp at hc
  | cons c0 cs ih =>
    intro c hc
    simp only [List.map_cons, List.nodup_cons] at hnd
    rcases List.mem_cons.mp hc with rfl | hc'
    · simp [dictGet]
    · have hne : ¬c0.uniq_id = c.uniq_id := fun he =>
        hnd.1 (by rw [he]; exact List.mem_map_of_mem _ hc')
      simp only [List.map_cons, dictGet]
      rw [if_neg hne]
      exact ih hnd.2 c hc'

/-- Truncating the score list and resolving ids through a faithful
candidate dictionary reproduces the channel prefix. -/
theorem scoreList_take_filterMap (d : List (String × Tests.ProductMetadata)) :
    ∀ (B : List Tests.ProductMetadata) (i k : ℕ),
      (∀ c ∈ B, dictGet d c.uniq_id = some c) →
      ((Tests.scoreList i B).take k).filterMap (fun p => dictGet d p.1) = B.take k := by
  intro B
  induction B with
  | nil =>
    intro i k _
    simp [Tests.scoreList]
  | cons c cs ih =>
    intro i k h
    cases k with
    | zero => simp
    | succ k =>
      simp only [Tests.scoreList, List.take_succ_cons, List.filterMap_cons]
      rw [h c (List.mem_cons_self c cs)]
      rw [ih (i + 1) k (fun c' hc' => h c' (List.mem_cons_of_mem c hc'))]

/-- Claim C8: the empty channel is an identity for fusion — with one
channel empty the fused list is the other channel truncated to `k` in
order, and fusing two empty channels yields the empty list. -/
theorem rrf_empty_channel (A B : List Tests.ProductMetadata) (k : ℕ)
    (hA : (A.map Tests.ProductMetadata.uniq_id).Nodup)
    (hB : (B.map Tests.ProductMetadata.uniq_id).Nodup) :
    Tests.reciprocal_rank_fusion [] B k = B.take k
    ∧ Tests.reciprocal_rank_fusion A [] k = A.take k
    ∧ Tests.reciprocal_rank_fusion ([] : List Tests.ProductMetadata) [] k = [] := by
  refine ⟨?_, ?_, ?_⟩
  · unfold Tests.reciprocal_rank_fusion
    have hcomb : Tests.combinedScores [] B = Tests.scoreList 0 B := by
      rw [combinedScores_eq [] B (by simp) hB]
      unfold Tests.mergeImage
      rw [show Tests.scoreList 0 ([] : List Tests.ProductMetadata) = [] from rfl]
      simp only [List.map_nil, List.nil_append]
      have hf : B.filter (fun c => !dictHas ([] : List (String × ℚ)) c.uniq_id) = B :=
        List.filter_eq_self.mpr (fun c _ => rfl)
      rw [hf, rankScores_eq B hB]
      exact map_getD_scoreList B 0 hB
    rw [hcomb, sortDesc_of_sorted Prod.snd _ (scoreList_sorted B 0),
      allCandidates_nil_left B hB]
    exact scoreList_take_filterMap _ B 0 k (dictGet_map_self B hB)
  · unfold Tests.reciprocal_rank_fusion
    have hcomb : Tests.combinedScores A [] = Tests.scoreList 0 A := by
      rw [combinedScores_eq A [] hA (by simp)]
      unfold Tests.mergeImage
      simp only [List.map_nil, List.filter_nil, List.append_nil]
      have h1 : ∀ p ∈ Tests.scoreList 0 A,
          (p.1, if p.1 ∈ ([] : List String) then
              p.2 + (dictGet (Tests.rankScores ([] : List Tests.ProductMetadata)) p.1).getD 0
            else p.2) = (id p : String × ℚ) := by
        intro p hp
        simp
      rw [List.map_congr_left h1, List.map_id]
    rw [hcomb, sortDesc_of_sorted Prod.snd _ (scoreList_sorted A 0),
      allCandidates_nil_right A hA]
    exact scoreList_take_filterMap _ A 0 k (dictGet_map_self A hA)
  · unfold Tests.reciprocal_rank_fusion
    rw [show Tests.combinedScores ([] : List Tests.ProductMetadata) [] = [] from rfl]
    simp [sortDesc]

/-- Witness for C8: fusing the concrete channels against an empty partner
returns their `k`-prefixes. -/
theorem rrf_empty_channel_witness :
    ((tsW.map Tests.ProductMetadata.uniq_id).Nodup
      ∧ (isW.map Tests.ProductMetadata.uniq_id).Nodup)
    ∧ (Tests.reciprocal_rank_fusion [] isW 2 = isW.take 2
      ∧ Tests.reciprocal_rank_fusion tsW [] 2 = tsW.take 2
      ∧ Tests.reciprocal_rank_fusion ([] : List Tests.ProductMetadata) [] 2 = []) :=
  ⟨⟨by decide, by decide⟩, rrf_empty_channel tsW isW 2 (by decide) (by decide)⟩

/-- Insertion adds exactly the new element to the members. -/
theorem mem_insertDesc {α : Type _} (s : α → ℚ) (x z : α) (l : List α) :
    z ∈ insertDesc s x l ↔ z = x ∨ z ∈ l := by
  induction l with
  | nil => simp [insertDesc]
  | cons y ys ih =>
    simp only [insertDesc]
    split
    · simp [List.mem_cons]
    · rw [List.mem_cons, ih, List.mem_cons]
      tauto

/-- The stable sort is a permutation: membership is unchanged. -/
theorem mem_sortDesc {α : Type _} (s : α → ℚ) (l : List α) (z : α) :
    z ∈ sortDesc s l ↔ z ∈ l := by
  induction l with
  | nil => simp [sortDesc]
  | cons x xs ih =>
    simp only [sortDesc]
    rw [mem_insertDesc, ih, List.mem_cons]

/-- Inserting an element whose original position precedes everything in an
already `fusedOrder`-sorted list keeps the list `fusedOrder`-sorted: the
element goes after all strictly greater scores and before every equal
score (stability). -/
theorem insertDesc_pairwise (x : ℕ × String × ℚ) (l : List (ℕ × String × ℚ))
    (hl : l.Pairwise fusedOrder) (hidx : ∀ y ∈ l, x.1 < y.1) :
    (insertDesc (fun p => p.2.2) x l).Pairwise fusedOrder := by
  induction l with
  | nil => simp [insertDesc]
  | cons y ys ih =>
    have hpw := List.pairwise_cons.mp hl
    simp only [insertDesc]
    split
    · rename_i hle
      refine List.pairwise_cons.mpr ⟨?_, hl⟩
      intro z hz
      rcases List.mem_cons.mp hz with rfl | hz'
      · rcases lt_or_eq_of_le hle with hlt | heq
        · exact Or.inl hlt
        · exact Or.inr ⟨heq.symm, hidx _ (List.mem_cons_self _ ys)⟩
      · have hyz := hpw.1 z hz'
        have hz2 : z.2.2 ≤ y.2.2 := by
          rcases hyz with h | h
          · exact le_of_lt h
          · exact le_of_eq h.1.symm
        rcases lt_or_eq_of_le (le_trans hz2 hle) with hlt | heq
        · exact Or.inl hlt
        · exact Or.inr ⟨heq.symm, hidx z (List.mem_cons_of_mem y hz')⟩
    · rename_i hgt
      refine List.pairwise_cons.mpr
        ⟨?_, ih hpw.2 (fun z hz => hidx z (List.mem_cons_of_mem y hz))⟩
      intro z hz
      rcases (mem_insertDesc _ x z _).mp hz with rfl | hz'
      · exact Or.inl (not_le.mp hgt)
      · exact hpw.1 z hz'

/-- Sorting index-tagged entries whose indices increase yields a list that
is pairwise `fusedOrder`: scores non-increasing, ties by original
position. -/
theorem sortDesc_pairwise (l : List (ℕ × String × ℚ))
    (hl : l.Pairwise (fun a b => a.1 < b.1)) :
    (sortDesc (fun p => p.2.2) l).Pairwise fusedOrder := by
  induction l with
  | nil => simp [sortDesc]
  | cons x xs ih =>
    have hpw := List.pairwise_cons.mp hl
    simp only [sortDesc]
    exact insertDesc_pairwise x _ (ih hpw.2)
      (fun y hy => hpw.1 y ((mem_sortDesc _ xs y).mp hy))

/-- Position tags start at the given offset. -/
theorem mem_withIdx_ge {α : Type _} (l : List α) :
    ∀ (n : ℕ) (p : ℕ × α), p ∈ withIdx n l → n ≤ p.1 := by
  induction l with
  | nil =>
    intro n p hp
    simp [withIdx] at hp
  | cons x xs ih =>
    intro n p hp
    simp only [withIdx] at hp
    rcases List.mem_cons.mp hp with rfl | hp'
    · exact le_refl n
    · exact le_trans (Nat.le_succ n) (ih (n + 1) p hp')

/-- Position tags are strictly increasing. -/
theorem withIdx_pairwise {α : Type _} (l : List α) :
    ∀ n, (withIdx n l).Pairwise (fun a b => a.1 < b.1) := by
  induction l with
  | nil => intro n; simp [withIdx]
  | cons x xs ih =>
    intro n
    simp only [withIdx]
    refine List.pairwise_cons.mpr ⟨?_, ih (n + 1)⟩
    intro p hp
    have := mem_withIdx_ge xs (n + 1) p hp
    show n < p.1
    omega

/-- Dropping the position tags recovers the original list. -/
theorem map_snd_withIdx {α : Type _} (l : List α) :
    ∀ n, (withIdx n l).map Prod.snd = l := by
  induction l with
  | nil => intro n; rfl
  | cons x xs ih =>
    intro n
    simp [withIdx, ih (n + 1)]

/-- Inserting commutes with dropping position tags: the comparison only
reads the score. -/
theorem insertDesc_map_snd (x : ℕ × String × ℚ) (l : List (ℕ × String × ℚ)) :
    (insertDesc (fun p => p.2.2) x l).map Prod.snd
      = insertDesc Prod.snd x.2 (l.map Prod.snd) := by
  induction l with
  | nil => rfl
  | cons y ys ih =>
    simp only [insertDesc, List.map_cons]
    by_cases h : y.2.2 ≤ x.2.2
    · rw [if_pos h, if_pos h]
      simp
    · rw [if_neg h, if_neg h]
      simp [ih]

/-- Sorting commutes with dropping position tags. -/
theorem sortDesc_map_snd (l : List (ℕ × String × ℚ)) :
    (sortDesc (fun p => p.2.2) l).map Prod.snd = sortDesc Prod.snd (l.map Prod.snd) := by
  induction l with
  | nil => rfl
  | cons x xs ih =>
    simp only [sortDesc, List.map_cons]
    rw [insertDesc_map_snd, ih]

/-- Mapping under a filter whose test factors through the map. -/
theorem map_filter_comp {α β : Type _} (l : List α) (f : α → β) (q : β → Bool) :
    (l.filter (fun c => q (f c))).map f = (l.map f).filter q := by
  induction l with
  | nil => rfl
  | cons c cs ih =>
    cases h : q (f c) <;> simp [List.filter_cons, h, ih]

/-- The key order of `combined_scores`: text ids in rank order, then the
image ids not already seen, in rank order — the channel-of-discovery
insertion order. -/
theorem combined_keys (ts imgs : List Tests.ProductMetadata)
    (hts : (ts.map Tests.ProductMetadata.uniq_id).Nodup)
    (himgs : (imgs.map Tests.ProductMetadata.uniq_id).Nodup) :
    (Tests.combinedScores ts imgs).map Prod.fst
      = ts.map Tests.ProductMetadata.uniq_id
        ++ (imgs.map Tests.ProductMetadata.uniq_id).filter
            (fun x => decide (x ∉ ts.map Tests.ProductMetadata.uniq_id)) := by
  rw [combinedScores_eq ts imgs hts himgs]
  unfold Tests.mergeImage
  rw [List.map_append]
  congr 1
  · rw [map_fst_value (Tests.scoreList 0 ts)
      (fun k v => if k ∈ imgs.map Tests.ProductMetadata.uniq_id
        then v + (dictGet (Tests.rankScores imgs) k).getD 0 else v), scoreList_map_fst]
  · rw [List.map_map]
    have hcomp : (Prod.fst ∘ fun c : Tests.ProductMetadata =>
        (c.uniq_id, (dictGet (Tests.rankScores imgs) c.uniq_id).getD 0))
        = fun c : Tests.ProductMetadata => c.uniq_id := rfl
    rw [hcomp]
    have hq : ∀ c ∈ imgs, (!dictHas (Tests.scoreList 0 ts) c.uniq_id)
        = decide (c.uniq_id ∉ ts.map Tests.ProductMetadata.uniq_id) := by
      intro c _
      rw [dictHas_eq_decide, scoreList_map_fst, decide_not]
    rw [List.filter_congr hq]
    exact map_filter_comp imgs Tests.ProductMetadata.uniq_id
      (fun x => decide (x ∉ ts.map Tests.ProductMetadata.uniq_id))

/-- Every entry of `all_candidates` is stored under its own id. -/
theorem allCandidates_entries (ts imgs : List Tests.ProductMetadata) :
    ∀ q ∈ Tests.allCandidates ts imgs, q.2.uniq_id = q.1 := by
  have step : ∀ (l : List Tests.ProductMetadata) (d : List (String × Tests.ProductMetadata)),
      (∀ q ∈ d, q.2.uniq_id = q.1) →
      ∀ q ∈ l.foldl (fun d c => dictSet d c.uniq_id c) d, q.2.uniq_id = q.1 := by
    intro l
    induction l with
    | nil => intro d hd q hq; exact hd q hq
    | cons c cs ih =>
      intro d hd q hq
      simp only [List.foldl_cons] at hq
      refine ih (dictSet d c.uniq_id c) ?_ q hq
      intro q' hq'
      rcases mem_dictSet d c.uniq_id c q' hq' with h1 | h2
      · exact hd q' h1
      · rw [h2]
  unfold Tests.allCandidates
  exact step imgs _ (step ts [] (by intro q hq; simp at hq))

/-- Every channel id has an entry in `all_candidates`. -/
theorem allCandidates_has (ts imgs : List Tests.ProductMetadata) (x : String)
    (hx : x ∈ ts.map Tests.ProductMetadata.uniq_id
      ∨ x ∈ imgs.map Tests.ProductMetadata.uniq_id) :
    dictHas (Tests.allCandidates ts imgs) x = true := by
  have step : ∀ (l : List Tests.ProductMetadata) (d : List (String × Tests.ProductMetadata)),
      (x ∈ l.map Tests.ProductMetadata.uniq_id ∨ dictHas d x = true) →
      dictHas (l.foldl (fun d c => dictSet d c.uniq_id c) d) x = true := by
    intro l
    induction l with
    | nil =>
      intro d h
      rcases h with h | h
      · simp at h
      · exact h
    | cons c cs ih =>
      intro d h
      simp only [List.foldl_cons]
      apply ih
      rcases h with h | h
      · simp only [List.map_cons, List.mem_cons] at h
        rcases h with he | hmm
        · right
          rw [dictHas_dictSet]
          simp [he]
        · exact Or.inl hmm
      · right
        rw [dictHas_dictSet, h]
        rfl
  unfold Tests.allCandidates
  rcases hx with hx | hx
  · exact step imgs _ (Or.inr (step ts [] (Or.inl hx)))
  · exact step imgs _ (Or.inl hx)

/-- A present key has a successful lookup. -/
theorem dictHas_dictGet_isSome {β : Type _} (d : List (String × β)) (x : String)
    (h : dictHas d x = true) : ∃ v, dictGet d x = some v := by
  induction d with
  | nil => simp [dictHas] at h
  | cons p ps ih =>
    by_cases hp : p.1 = x
    · exact ⟨p.2, by simp [dictGet, hp]⟩
    · simp only [dictHas] at h
      rw [if_neg hp] at h
      obtain ⟨v, hv⟩ := ih h
      exact ⟨v, by simp [dictGet, hp, hv]⟩

/-- A `filterMap` that always succeeds is a `map`. -/
theorem filterMap_eq_map_of_some {α β : Type _} (l : List α) (F : α → Option β)
    (G : α → β) (h : ∀ a ∈ l, F a = some (G a)) : l.filterMap F = l.map G := by
  induction l with
  | nil => rfl
  | cons a as ih =>
    rw [List.filterMap_cons, h a (List.mem_cons_self a as), List.map_cons,
      ih (fun a' ha' => h a' (List.mem_cons_of_mem a ha'))]

/-- Claim C3: the fused list is ordered by non-increasing combined score
with ties broken by insertion order into `combined_scores` — text channel
first, then image, each by ascending rank — so identical inputs give
identical outputs (the fusion is a pure function).  Conjuncts: (1) the
dictionary's key order is text ids then unseen image ids; (2) the stable
sort of the position-tagged entries is pairwise "greater score, or equal
score and earlier position"; (3) the code's sorted list is that stable
sort with the tags dropped; (4) the fused output lists exactly the ids of
the first `k` sorted entries, in order. -/
theorem rrf_deterministic_order (ts imgs : List Tests.ProductMetadata) (k : ℕ)
    (hts : (ts.map Tests.ProductMetadata.uniq_id).Nodup)
    (himgs : (imgs.map Tests.ProductMetadata.uniq_id).Nodup) :
    ((Tests.combinedScores ts imgs).map Prod.fst
        = ts.map Tests.ProductMetadata.uniq_id
          ++ (imgs.map Tests.ProductMetadata.uniq_id).filter
              (fun x => decide (x ∉ ts.map Tests.ProductMetadata.uniq_id)))
    ∧ (sortDesc (fun p => p.2.2)
        (withIdx 0 (Tests.combinedScores ts imgs))).Pairwise fusedOrder
    ∧ sortDesc Prod.snd (Tests.combinedScores ts imgs)
        = (sortDesc (fun p => p.2.2) (withIdx 0 (Tests.combinedScores ts imgs))).map Prod.snd
    ∧ (Tests.reciprocal_rank_fusion ts imgs k).map Tests.ProductMetadata.uniq_id
        = ((sortDesc Prod.snd (Tests.combinedScores ts imgs)).take k).map Prod.fst := by
  refine ⟨combined_keys ts imgs hts himgs,
    sortDesc_pairwise _ (withIdx_pairwise _ 0), ?_, ?_⟩
  · rw [sortDesc_map_snd, map_snd_withIdx]
  · unfold Tests.reciprocal_rank_fusion
    have hsome : ∀ p ∈ (sortDesc Prod.snd (Tests.combinedScores ts imgs)).take k,
        dictGet (Tests.allCandidates ts imgs) p.1
          = some ((dictGet (Tests.allCandidates ts imgs) p.1).getD default) := by
      intro p hp
      have hp1 : p ∈ Tests.combinedScores ts imgs :=
        (mem_sortDesc Prod.snd _ p).mp (List.take_subset k _ hp)
      have hkey : p.1 ∈ (Tests.combinedScores ts imgs).map Prod.fst :=
        List.mem_map_of_mem Prod.fst hp1
      rw [combined_keys ts imgs hts himgs] at hkey
      have hx : p.1 ∈ ts.map Tests.ProductMetadata.uniq_id
          ∨ p.1 ∈ imgs.map Tests.ProductMetadata.uniq_id := by
        rcases List.mem_append.mp hkey with h | h
        · exact Or.inl h
        · exact Or.inr (List.mem_of_mem_filter h)
      obtain ⟨v, hv⟩ := dictHas_dictGet_isSome _ p.1 (allCandidates_has ts imgs p.1 hx)
      rw [hv]
      rfl
    rw [filterMap_eq_map_of_some _ _ _ hsome, List.map_map]
    apply List.map_congr_left
    intro p hp
    have h1 := hsome p hp
    have hmem := dictGet_mem _ _ _ h1
    exact allCandidates_entries ts imgs _ hmem

/-- Witness for C3: the deterministic-order facts at the concrete channels
`[A, B]` and `[B, C]` with `k = 3`. -/
theorem rrf_deterministic_order_witness :
    ((tsW.map Tests.ProductMetadata.uniq_id).Nodup
      ∧ (isW.map Tests.ProductMetadata.uniq_id).Nodup)
    ∧ (((Tests.combinedScores tsW isW).map Prod.fst
        = tsW.map Tests.ProductMetadata.uniq_id
          ++ (isW.map Tests.ProductMetadata.uniq_id).filter
              (fun x => decide (x ∉ tsW.map Tests.ProductMetadata.uniq_id)))
    ∧ (sortDesc (fun p => p.2.2)
        (withIdx 0 (Tests.combinedScores tsW isW))).Pairwise fusedOrder
    ∧ sortDesc Prod.snd (Tests.combinedScores tsW isW)
        = (sortDesc (fun p => p.2.2) (withIdx 0 (Tests.combinedScores tsW isW))).map Prod.snd
    ∧ (Tests.reciprocal_rank_fusion tsW isW 3).map Tests.ProductMetadata.uniq_id
        = ((sortDesc Prod.snd (Tests.combinedScores tsW isW)).take 3).map Prod.fst) :=
  ⟨⟨by decide, by decide⟩, rrf_deterministic_order tsW isW 3 (by decide) (by decide)⟩
